import Mathlib

/-!
Shallow embedding of the transcript-extraction pipeline of
`services/ai_service.py` (class `AIService`).

Strings are modelled as Lean `String` / `List Char` with ASCII semantics for
the character classes used by the Python regular expressions (`[A-Z]`,
`[a-z]`, `\s`, `.lower()`, `.isupper()`); every transcript appearing in the
claims is ASCII.  Python's `re.findall` is embedded by specialised
backtracking matchers, one per pattern of the source, which reproduce the
leftmost, non-overlapping scan, the greedy star over name words, the greedy
whitespace runs, and the lazy `(.+?)(?=\.|\n|$)` task capture.  JSON values
produced by the remote model are modelled by the inductive type `JVal`;
Python exceptions are modelled by `Except String`.  `json.loads` (standard
library, outside this repository) is an abstract parameter `parse` of the
pipeline, and `datetime.utcnow().isoformat()` is an explicit `now` argument.
-/

namespace AIService

/-- ASCII uppercase letter, the semantics of the regex class `[A-Z]` and of
`str.isupper()` on the ASCII inputs considered here. -/
def isUpperA (c : Char) : Bool := 65 ≤ c.toNat && c.toNat ≤ 90

/-- ASCII lowercase letter, the semantics of the regex class `[a-z]`. -/
def isLowerA (c : Char) : Bool := 97 ≤ c.toNat && c.toNat ≤ 122

/-- ASCII letter: the class `[A-Za-z]`, which is what `[A-Z]` and `[a-z]`
match under `re.IGNORECASE`. -/
def isLetterA (c : Char) : Bool := isUpperA c || isLowerA c

/-- Whitespace as matched by Python's `\s` and stripped by `str.strip()`
on ASCII text: space, tab, newline, carriage return, vertical tab, form
feed. -/
def isSpaceChar (c : Char) : Bool :=
  c.toNat = 32 || c.toNat = 9 || c.toNat = 10 || c.toNat = 13 ||
  c.toNat = 11 || c.toNat = 12

/-- ASCII lowercasing, the semantics of `str.lower()` on ASCII text. -/
def toLowerA (c : Char) : Char :=
  if isUpperA c then Char.ofNat (c.toNat + 32) else c

/-- Python `str.strip()`: remove leading and trailing whitespace. -/
def pyStrip (l : List Char) : List Char :=
  ((l.dropWhile isSpaceChar).reverse.dropWhile isSpaceChar).reverse

/-- String-level `str.strip()`. -/
def pyStripS (s : String) : String := String.mk (pyStrip s.data)

/-- ASCII `str.lower()` over a whole string. -/
def lowerAll (l : List Char) : List Char := l.map toLowerA

/-- List prefix test (Python `str.startswith` on the underlying text). -/
def isPre : List Char → List Char → Bool
  | [], _ => true
  | _ :: _, [] => false
  | p :: ps, c :: cs => p = c && isPre ps cs

/-- First-occurrence deduplication with the set of already-seen elements
as an accumulator. -/
def dedupFirstAux {α : Type} [DecidableEq α] : List α → List α → List α
  | _, [] => []
  | seen, x :: xs =>
    if x ∈ seen then dedupFirstAux seen xs
    else x :: dedupFirstAux (x :: seen) xs

/-- First-occurrence deduplication, the semantics of Python's
`list(dict.fromkeys(xs))` (and, up to iteration order, of `list(set(xs))`). -/
def dedupFirst {α : Type} [DecidableEq α] (l : List α) : List α :=
  dedupFirstAux [] l

/-- The fixed stop-word set `junk_words` of `_clean_participants`. -/
def junkWords : List String :=
  ["date", "time", "meeting", "call", "team", "group", "project",
   "need", "will", "can", "should", "would", "discussion", "agenda",
   "minutes", "action", "item", "decision", "summary", "everyone",
   "all", "we", "us", "they", "them", "it", "this", "that"]

/-- The filter of `_clean_participants` applied to one already-stripped
entry: length at least 2, first character uppercase, lowercased form not a
stop word, lowercased form not starting with `http`, `www` or `@`. -/
def keepChars (t : List Char) : Bool :=
  decide (2 ≤ t.length) &&
  (match t with
   | c :: _ => isUpperA c
   | [] => false) &&
  !(decide (String.mk (lowerAll t) ∈ junkWords)) &&
  !(isPre "http".data (lowerAll t) || isPre "www".data (lowerAll t) ||
    isPre "@".data (lowerAll t))

/-- One loop iteration of `_clean_participants`: strip the entry, keep it
when the filter passes. -/
def cleanStep (s : String) : Option String :=
  let t := pyStrip s.data
  if keepChars t then some (String.mk t) else none

/-- `AIService._clean_participants`: strip and filter each entry, then
remove duplicates preserving first-seen order (`list(dict.fromkeys(...))`). -/
def cleanParticipants (ps : List String) : List String :=
  dedupFirst (ps.filterMap cleanStep)

/-- First alternative of a list that produces a value; models ordered
regex alternation and backtracking over candidate matches. -/
def firstSome {α β : Type} : List α → (α → Option β) → Option β
  | [], _ => none
  | a :: l, f =>
    match f a with
    | some b => some b
    | none => firstSome l f

/-- Character comparison, optionally case-insensitive (`re.IGNORECASE`). -/
def eqCi (ci : Bool) (p c : Char) : Bool :=
  if ci then toLowerA p = toLowerA c else p = c

/-- Match a literal pattern at the head of the input, returning the rest;
case-insensitive when `ci` is set. -/
def stripLit (ci : Bool) : List Char → List Char → Option (List Char)
  | [], cs => some cs
  | _ :: _, [] => none
  | p :: ps, c :: cs => if eqCi ci p c then stripLit ci ps cs else none

/-- Ordered regex alternation of literal verb phrases: the first phrase in
the list that matches at the head wins. -/
def matchVerb (ci : Bool) (verbs : List (List Char)) (cs : List Char) :
    Option (List Char) :=
  firstSome verbs (fun v => stripLit ci v cs)

/-- One name word `[A-Z][a-z]+` (or `[A-Za-z][A-Za-z]+` under
`re.IGNORECASE`): a first letter and at least one further letter, matched
greedily.  Returns the word and the rest of the input. -/
def nameWord (ci : Bool) : List Char → Option (List Char × List Char)
  | [] => none
  | c :: cs =>
    if (if ci then isLetterA c else isUpperA c) then
      let w := cs.takeWhile (fun d => if ci then isLetterA d else isLowerA d)
      let r := cs.dropWhile (fun d => if ci then isLetterA d else isLowerA d)
      if w.isEmpty then none else some (c :: w, r)
    else none

/-- Candidates of the greedy star `(?:\s+[A-Z][a-z]+)*` after an initial
name word `acc`, listed in backtracking order: the fully extended name
first, then successively shorter names.  Each candidate pairs the captured
name with the remaining input.  `fuel` bounds the recursion; each extension
consumes at least two characters of `rest`. -/
def nameExtsAux (ci : Bool) : Nat → List Char → List Char →
    List (List Char × List Char)
  | 0, acc, rest => [(acc, rest)]
  | fuel + 1, acc, rest =>
    let ws := rest.takeWhile isSpaceChar
    let r1 := rest.dropWhile isSpaceChar
    if ws.isEmpty then [(acc, rest)]
    else
      match nameWord ci r1 with
      | none => [(acc, rest)]
      | some (w, r2) => nameExtsAux ci fuel (acc ++ ws ++ w) r2 ++ [(acc, rest)]

/-- All backtracking candidates of the capture group
`([A-Z][a-z]+(?:\s+[A-Z][a-z]+)*)` at the head of the input, longest
first; empty when no name word starts here. -/
def nameCandidates (ci : Bool) (cs : List Char) : List (List Char × List Char) :=
  match nameWord ci cs with
  | none => []
  | some (w, r) => nameExtsAux ci r.length w r

/-- Leftmost, non-overlapping scan of `re.findall`: at each position try a
match; on success emit the capture and resume after the match, otherwise
advance one character.  `fuel` bounds the scan (every match consumes at
least one character). -/
def scanAux {α : Type} (tryHere : List Char → Option (α × List Char)) :
    Nat → List Char → List α
  | 0, _ => []
  | _ + 1, [] => []
  | fuel + 1, c :: cs =>
    match tryHere (c :: cs) with
    | some (a, rest) => a :: scanAux tryHere fuel rest
    | none => scanAux tryHere fuel cs

/-- Match attempt for participant pattern 1,
`([A-Z][a-z]+(?:\s+[A-Z][a-z]+)*):`, at the head of the input: a name
candidate whose remaining input starts with a colon.  Returns the captured
name and the input after the colon (end of the whole match). -/
def tryP1 (cs : List Char) : Option (List Char × List Char) :=
  firstSome (nameCandidates false cs) (fun p =>
    match p.2 with
    | ':' :: r => some (p.1, r)
    | _ => none)

/-- Reporting verbs of participant pattern 2, in alternation order. -/
def verbsSaid : List (List Char) :=
  ["said".data, "mentioned".data, "noted".data, "stated".data]

/-- Match attempt for participant pattern 2,
`([A-Z][a-z]+(?:\s+[A-Z][a-z]+)*)\s+(?:said|mentioned|noted|stated)`:
a name candidate followed by whitespace and a reporting verb
(case-sensitive, as this pattern carries no flag).  The maximal whitespace
run is forced because no verb starts with whitespace. -/
def tryP2 (cs : List Char) : Option (List Char × List Char) :=
  firstSome (nameCandidates false cs) (fun p =>
    let ws := p.2.takeWhile isSpaceChar
    let r1 := p.2.dropWhile isSpaceChar
    if ws.isEmpty then none
    else (matchVerb false verbsSaid r1).map (fun r2 => (p.1, r2)))

/-- Lazy task capture `(.+?)(?=\.|\n|$)`: consume the minimal nonempty run
of non-newline characters after which the lookahead holds (next character
is `.` or a newline, or the input ends).  Returns the captured task and
the remaining input (the lookahead consumes nothing). -/
def taskScan : List Char → Option (List Char × List Char)
  | [] => none
  | c :: cs =>
    if c = '\n' then none
    else if cs.isEmpty || cs.head? = some '.' || cs.head? = some '\n' then
      some ([c], cs)
    else
      match taskScan cs with
      | some (t, r) => some (c :: t, r)
      | none => none

/-- Backtracking of the greedy `\s+` before the lazy task: the whitespace
run first keeps every space, then gives characters back one at a time (the
dot can match space characters), never giving back the mandatory first
space.  `give` is the reversed pool of characters available to give back. -/
def tryTaskGiveback : List Char → List Char → Option (List Char × List Char)
  | give, tail =>
    match taskScan tail with
    | some res => some res
    | none =>
      match give with
      | [] => none
      | s :: give' => tryTaskGiveback give' (s :: tail)

/-- Modal verbs of the action-item patterns, in alternation order.  The
phrase `needs to` carries its literal single space. -/
def verbsModal : List (List Char) :=
  ["will".data, "should".data, "needs to".data, "must".data]

/-- Commitment verbs of action-item pattern 3, in alternation order. -/
def verbsAgreed : List (List Char) :=
  ["agreed to".data, "committed to".data]

/-- Continuation `\s+(?:verbs)\s+(.+?)(?=\.|\n|$)` of the action-item
patterns after a captured name (all action patterns carry
`re.IGNORECASE`).  Returns the captured task and the rest of the input
after the whole match. -/
def contAction (verbs : List (List Char)) (r : List Char) :
    Option (List Char × List Char) :=
  let ws := r.takeWhile isSpaceChar
  let r1 := r.dropWhile isSpaceChar
  if ws.isEmpty then none
  else
    match matchVerb true verbs r1 with
    | none => none
    | some r2 =>
      let sp := r2.takeWhile isSpaceChar
      let after := r2.dropWhile isSpaceChar
      if sp.isEmpty then none
      else tryTaskGiveback (sp.drop 1).reverse after

/-- Match attempt for action pattern 1,
`([A-Z][a-z]+(?:\s+[A-Z][a-z]+)*)\s+(?:will|should|needs to|must)\s+(.+?)(?=\.|\n|$)`
under `re.IGNORECASE`: the owner capture and the task capture. -/
def tryA1 (cs : List Char) : Option ((List Char × List Char) × List Char) :=
  firstSome (nameCandidates true cs) (fun p =>
    (contAction verbsModal p.2).map (fun q => ((p.1, q.1), q.2)))

/-- Match attempt for action pattern 2,
`Action item[^:]*:\s*` followed by the same name, modal verb and task as
pattern 1, under `re.IGNORECASE`.  The class `[^:]*` cannot cross a colon,
so it is forced to stop at the first colon; the `\s*` before the name is
forced maximal because a name starts with a letter. -/
def tryA2 (cs : List Char) : Option ((List Char × List Char) × List Char) :=
  match stripLit true "Action item".data cs with
  | none => none
  | some r0 =>
    match r0.dropWhile (fun c => c ≠ ':') with
    | ':' :: r2 =>
      let r3 := r2.dropWhile isSpaceChar
      firstSome (nameCandidates true r3) (fun p =>
        (contAction verbsModal p.2).map (fun q => ((p.1, q.1), q.2)))
    | _ => none

/-- Match attempt for action pattern 3,
`([A-Z][a-z]+(?:\s+[A-Z][a-z]+)*)\s+(?:agreed to|committed to)\s+(.+?)(?=\.|\n|$)`
under `re.IGNORECASE`. -/
def tryA3 (cs : List Char) : Option ((List Char × List Char) × List Char) :=
  firstSome (nameCandidates true cs) (fun p =>
    (contAction verbsAgreed p.2).map (fun q => ((p.1, q.1), q.2)))

/-- `AIService._extract_participants_fallback`: `re.findall` of the two
speaker patterns over the transcript, the union of the matches collected
into a set (modelled by first-occurrence deduplication; only membership in
the set is determined by the source, as Python leaves set iteration order
unspecified), then `_clean_participants`. -/
def extractParticipantsFallback (t : String) : List String :=
  let l := t.data
  let m1 := scanAux tryP1 l.length l
  let m2 := scanAux tryP2 l.length l
  cleanParticipants (dedupFirst ((m1 ++ m2).map String.mk))

/-- One extracted action item: the dict
`{task, owner, deadline, status}` built by
`_extract_action_items_fallback`. -/
structure ActionItem where
  task : String
  owner : String
  deadline : String
  status : String
  deriving DecidableEq, Repr

/-- `AIService._extract_action_items_fallback`: `re.findall` of the three
action patterns (in order) over the transcript; each two-group match
yields one item with stripped task and owner and the fixed deadline and
status. -/
def extractActionItemsFallback (t : String) : List ActionItem :=
  let l := t.data
  let ms := scanAux tryA1 l.length l ++ scanAux tryA2 l.length l ++
            scanAux tryA3 l.length l
  ms.map (fun p =>
    { task := String.mk (pyStrip p.2)
      owner := String.mk (pyStrip p.1)
      deadline := "Not specified"
      status := "Pending" })

/-- JSON values, the dynamic shape handled by the pipeline after
`json.loads`.  Numbers are modelled by rationals; no arithmetic is ever
performed on them.  Objects model Python dicts as insertion-ordered
association lists (a dict never holds a duplicate key; all operations use
first-occurrence semantics, which coincide on such lists). -/
inductive JVal where
  | null : JVal
  | bool (b : Bool) : JVal
  | num (q : ℚ) : JVal
  | str (s : String) : JVal
  | arr (xs : List JVal) : JVal
  | obj (fields : List (String × JVal)) : JVal

/-- Python truthiness of a JSON value (`if result[...]:`): `None`, `False`,
zero, the empty string, the empty list and the empty dict are falsy. -/
def jTruthy : JVal → Bool
  | .null => false
  | .bool b => b
  | .num q => q ≠ 0
  | .str s => s ≠ ""
  | .arr xs => !xs.isEmpty
  | .obj fs => !fs.isEmpty

/-- Dict read: value at the first occurrence of the key. -/
def lookupAssoc : List (String × JVal) → String → Option JVal
  | [], _ => none
  | (k', v) :: fs, k => if k' = k then some v else lookupAssoc fs k

/-- Dict write `d[k] = v`: replace the value at an existing key in place,
otherwise append the new key at the end (insertion order). -/
def setAssoc : List (String × JVal) → String → JVal → List (String × JVal)
  | [], k, v => [(k, v)]
  | (k', v') :: fs, k, v =>
    if k' = k then (k, v) :: fs else (k', v') :: setAssoc fs k v

/-- Item assignment `result[k] = v` on an arbitrary value: a `TypeError`
when the value is not a dict (as in `_ai_process` when the parsed reply is
not a JSON object). -/
def jSetKey : JVal → String → JVal → Except String JVal
  | .obj fs, k, v => .ok (.obj (setAssoc fs k v))
  | _, _, _ => .error "TypeError: item assignment on a non-dict value"

/-- Collect the elements of a JSON list as strings, failing at the first
element that is not a string (in Python, `participant.strip()` raises
`AttributeError` on it). -/
def strListE : List JVal → Except String (List String)
  | [] => .ok []
  | .str s :: xs => (strListE xs).map (fun l => s :: l)
  | _ :: _ => .error "AttributeError: strip on a non-string element"

/-- Dispatch of `_clean_participants` on the raw `participants` value: a
list of strings is cleaned (a non-string element raises at
`participant.strip()`), a string yields its one-character substrings, a
dict yields its keys, and any other value raises `TypeError` at the `for`
loop. -/
def cleanParticipantsJ : JVal → Except String (List String)
  | .arr xs => (strListE xs).map cleanParticipants
  | .str s => .ok (cleanParticipants (s.data.map (fun c => String.mk [c])))
  | .obj fs => .ok (cleanParticipants (fs.map (fun p => p.1)))
  | _ => .error "TypeError: participants value is not iterable"

/-- The `required_fields` list of `_validate_and_enhance`, in order. -/
def requiredFields : List String :=
  ["summary", "decisions", "agenda", "participants", "topics", "actionItems"]

/-- One iteration of the required-fields loop: `if field not in result:
result[field] = []`. -/
def ensureField (fs : List (String × JVal)) (f : String) :
    List (String × JVal) :=
  if (lookupAssoc fs f).isSome then fs else setAssoc fs f (.arr [])

/-- The whole required-fields loop of `_validate_and_enhance`. -/
def ensureFields (fs : List (String × JVal)) : List (String × JVal) :=
  requiredFields.foldl ensureField fs

/-- JSON form of one extracted action item, in the key order of the dict
literal of `_extract_action_items_fallback`. -/
def ActionItem.toJVal (a : ActionItem) : JVal :=
  .obj [("task", .str a.task), ("owner", .str a.owner),
        ("deadline", .str a.deadline), ("status", .str a.status)]

/-- The `if result['participants']: result['participants'] =
self._clean_participants(result['participants'])` step of
`_validate_and_enhance`; exceptions raised while cleaning propagate. -/
def cleanParticipantsField (fs : List (String × JVal)) :
    Except String (List (String × JVal)) :=
  let pv := (lookupAssoc fs "participants").getD .null
  if jTruthy pv then
    (cleanParticipantsJ pv).map
      (fun l => setAssoc fs "participants" (.arr (l.map .str)))
  else .ok fs

/-- The `if not result['participants']` backfill step of
`_validate_and_enhance`. -/
def backfillParticipants (fs : List (String × JVal)) (t : String) :
    List (String × JVal) :=
  if jTruthy ((lookupAssoc fs "participants").getD .null) then fs
  else setAssoc fs "participants"
         (.arr ((extractParticipantsFallback t).map .str))

/-- The `if not result['actionItems']` backfill step of
`_validate_and_enhance`. -/
def backfillActions (fs : List (String × JVal)) (t : String) :
    List (String × JVal) :=
  if jTruthy ((lookupAssoc fs "actionItems").getD .null) then fs
  else setAssoc fs "actionItems"
         (.arr ((extractActionItemsFallback t).map ActionItem.toJVal))

/-- `AIService._validate_and_enhance`: default the six required fields to
empty lists, clean a truthy `participants` value (any exception along the
way propagates to the caller), backfill empty `participants` and falsy
`actionItems` from the fallback extractors over the transcript. -/
def validateAndEnhance (j : JVal) (t : String) : Except String JVal :=
  match j with
  | .obj fs0 =>
    match cleanParticipantsField (ensureFields fs0) with
    | .error e => .error e
    | .ok fs2 => .ok (.obj (backfillActions (backfillParticipants fs2 t) t))
  | _ => .error "TypeError: result is not a dict"

/-- The fixed provider/model identifier stamped by the primary path. -/
def modelIdent : String := "openai/gpt-4o-mini"

/-- `AIService._ai_process` after the remote call: strip the reply, drop a
leading <code>```json</code> marker (7 characters) and a trailing
<code>```</code> marker (3 characters) when present, strip again, parse
(`json.loads`, abstracted as `parse`), then stamp `processed_at` and
`model_used`.  A transport error in `reply`, a parse failure, or item
assignment on a non-dict parse result all surface as errors. -/
def aiProcess (parse : String → Except String JVal)
    (reply : Except String String) (now : String) : Except String JVal := do
  let text ← reply
  let s0 := pyStrip text.data
  let s1 := if isPre "```json".data s0 then s0.drop 7 else s0
  let s2 := if isPre "```".data s1.reverse then s1.take (s1.length - 3) else s1
  let body := pyStrip s2
  let j ← parse (String.mk body)
  let o1 ← jSetKey j "processed_at" (.str now)
  jSetKey o1 "model_used" (.str modelIdent)

/-- `AIService._fallback_process`: the fixed record built when the primary
path threw, with `participants` and `actionItems` from the fallback
extractors, in the key order of the source dict literal. -/
def fallbackProcess (t : String) (now : String) : JVal :=
  .obj
    [("summary", .arr [.str "Meeting transcript processed with fallback method",
                       .str "AI processing temporarily unavailable"]),
     ("decisions", .arr []),
     ("agenda", .arr [.str "General discussion"]),
     ("participants", .arr ((extractParticipantsFallback t).map .str)),
     ("topics", .arr [.obj [("topic", .str "General meeting discussion"),
                            ("confidence", .num (7 / 10))]]),
     ("actionItems", .arr ((extractActionItemsFallback t).map ActionItem.toJVal)),
     ("processed_at", .str now),
     ("model_used", .str "fallback/regex")]

/-- `AIService.process_transcript`: run the primary path and
validation/enhancement; any exception raised along the way is caught and
answered by the fallback record.  The function is total: no error escapes
its boundary. -/
def processTranscript (parse : String → Except String JVal)
    (reply : Except String String) (t : String) (now : String) : JVal :=
  match aiProcess parse reply now >>= (fun r => validateAndEnhance r t) with
  | .ok out => out
  | .error _ => fallbackProcess t now

/-- Immutable state of a constructed `AIService` instance: the credential
read from the environment at construction. -/
structure Service where
  api_key : String
  deriving Repr, DecidableEq

/-- `AIService.__init__`: read `EMERGENT_LLM_KEY` from the environment and
raise `ValueError` when it is absent or falsy (the empty string). -/
def mkService (envKey : Option String) : Except String Service :=
  match envKey with
  | none => .error "ValueError: EMERGENT_LLM_KEY not found"
  | some k =>
    if k = "" then .error "ValueError: EMERGENT_LLM_KEY not found"
    else .ok { api_key := k }

/-- The record returned by `AIService.health_check`. -/
structure HealthStatus where
  status : String
  model : String
  has_api_key : Bool
  timestamp : String
  deriving Repr, DecidableEq

/-- `AIService.health_check`: report configuration readiness from
`bool(self.api_key)`; no branch of the body can raise, so the `except`
arm of the source is dead code on this model. -/
def healthCheck (s : Service) (now : String) : HealthStatus :=
  { status := if s.api_key ≠ "" then "healthy" else "unhealthy"
    model := modelIdent
    has_api_key := s.api_key ≠ ""
    timestamp := now }

/-- Field read on a record value: the dict lookup when the value is a
dict, nothing otherwise. -/
def recordField (j : JVal) (k : String) : Option JVal :=
  match j with
  | .obj fs => lookupAssoc fs k
  | _ => none

/-- Boolean completeness of a returned record: it is a dict carrying the
six content fields together with `processed_at` and `model_used`. -/
def completeRecord (j : JVal) : Bool :=
  match j with
  | .obj fs =>
    (requiredFields ++ ["processed_at", "model_used"]).all
      (fun f => (lookupAssoc fs f).isSome)
  | _ => false

/-- Substring test over character lists (used to state claims about a
task containing a given phrase). -/
def containsSub (needle : List Char) : List Char → Bool
  | [] => needle.isEmpty
  | c :: t => isPre needle (c :: t) || containsSub needle t

/-- An apostrophe, written by code point to keep the development free of
bare quote characters inside string literals. -/
def apos : String := String.mk [Char.ofNat 39]

/-- All six content fields are present on a returned record. -/
def sixFieldsPresent (j : JVal) : Prop :=
  ∃ fs, j = .obj fs ∧ ∀ f ∈ requiredFields, (lookupAssoc fs f).isSome

/-- The `participants` field of a returned record is a list of strings
without duplicates and without stop-word entries. -/
def participantsClean (j : JVal) : Prop :=
  ∃ (fs : List (String × JVal)) (l : List String), j = .obj fs ∧
    lookupAssoc fs "participants" = some (.arr (l.map JVal.str)) ∧
    l.Nodup ∧ ∀ x ∈ l, String.mk (lowerAll x.data) ∉ junkWords

/-- Concrete parsed reply for refuting the sequence part of the field
invariant: all six keys are present, but `summary` is a number. -/
def fsSummaryNum : List (String × JVal) :=
  [("summary", .num 5), ("decisions", .arr []), ("agenda", .arr []),
   ("participants", .arr [.str "Alice"]), ("topics", .arr []),
   ("actionItems", .arr [.str "x"])]

/-- Parse function returning `fsSummaryNum` on the stripped fenced body. -/
def parseSummaryNum : String → Except String JVal :=
  fun s => if s = "J" then .ok (.obj fsSummaryNum) else .error "unexpected"

/-- Concrete parsed reply whose `participants` entry is the stop word
`date`: cleaning empties it and the fallback extractor replaces it. -/
def fsDateParticipant : List (String × JVal) :=
  [("summary", .arr []), ("decisions", .arr []), ("agenda", .arr []),
   ("participants", .arr [.str "date"]), ("topics", .arr []),
   ("actionItems", .arr [.str "x"])]

/-- Parse function returning `fsDateParticipant` on the stripped body. -/
def parseDateParticipant : String → Except String JVal :=
  fun s => if s = "J" then .ok (.obj fsDateParticipant) else .error "unexpected"

/-- Concrete well-formed parsed reply: all six keys, participants that
survive cleaning unchanged, truthy action items. -/
def fsWellFormed : List (String × JVal) :=
  [("summary", .arr []), ("decisions", .arr []), ("agenda", .arr []),
   ("participants", .arr [.str "Alice"]), ("topics", .arr []),
   ("actionItems", .arr [.str "x"])]

/-- Parse function returning `fsWellFormed` on the stripped body. -/
def parseWellFormed : String → Except String JVal :=
  fun s => if s = "X" then .ok (.obj fsWellFormed) else .error "unexpected"

theorem lookup_setAssoc_self (fs : List (String × JVal)) (k : String)
    (v : JVal) : lookupAssoc (setAssoc fs k v) k = some v := by
  induction fs with
  | nil => simp [setAssoc, lookupAssoc]
  | cons p fs ih =>
    obtain ⟨k', v'⟩ := p
    by_cases h : k' = k <;> simp [setAssoc, lookupAssoc, h, ih]

theorem lookup_setAssoc_ne (fs : List (String × JVal)) (k k' : String)
    (v : JVal) (h : k' ≠ k) :
    lookupAssoc (setAssoc fs k v) k' = lookupAssoc fs k' := by
  induction fs with
  | nil =>
    simp [setAssoc, lookupAssoc]
    exact fun hk => absurd hk.symm h
  | cons p fs ih =>
    obtain ⟨k0, v0⟩ := p
    by_cases h0 : k0 = k
    · subst h0
      have hne : ¬ k0 = k' := fun hh => h hh.symm
      simp [setAssoc, lookupAssoc, hne]
    · simp [setAssoc, lookupAssoc, h0, ih]

theorem lookup_setAssoc_isSome (fs : List (String × JVal)) (k k' : String)
    (v : JVal) (h : (lookupAssoc fs k').isSome) :
    (lookupAssoc (setAssoc fs k v) k').isSome := by
  by_cases hk : k' = k
  · subst hk; simp [lookup_setAssoc_self]
  · rwa [lookup_setAssoc_ne fs k k' v hk]

theorem setAssoc_eq_self (fs : List (String × JVal)) (k : String) (v : JVal)
    (h : lookupAssoc fs k = some v) : setAssoc fs k v = fs := by
  induction fs with
  | nil => simp [lookupAssoc] at h
  | cons p fs ih =>
    obtain ⟨k0, v0⟩ := p
    by_cases h0 : k0 = k
    · subst h0
      simp [lookupAssoc] at h
      simp [setAssoc, h]
    · simp [lookupAssoc, h0] at h
      simp [setAssoc, h0, ih h]

theorem lookup_ensureField_isSome_mono (fs : List (String × JVal))
    (f k : String) (h : (lookupAssoc fs k).isSome) :
    (lookupAssoc (ensureField fs f) k).isSome := by
  unfold ensureField
  by_cases hf : (lookupAssoc fs f).isSome
  · simp [hf, h]
  · simp [hf]
    exact lookup_setAssoc_isSome fs f k (.arr []) h

theorem lookup_ensureField_self (fs : List (String × JVal)) (f : String) :
    (lookupAssoc (ensureField fs f) f).isSome := by
  unfold ensureField
  by_cases hf : (lookupAssoc fs f).isSome
  · simp [hf]
  · simp [hf, lookup_setAssoc_self]

theorem lookup_foldl_ensure_isSome_mono (l : List String)
    (fs : List (String × JVal)) (k : String)
    (h : (lookupAssoc fs k).isSome) :
    (lookupAssoc (l.foldl ensureField fs) k).isSome := by
  induction l generalizing fs with
  | nil => simpa
  | cons f l ih =>
    simp only [List.foldl_cons]
    exact ih (ensureField fs f) (lookup_ensureField_isSome_mono fs f k h)

theorem lookup_foldl_ensure_mem (l : List String)
    (fs : List (String × JVal)) (f : String) (h : f ∈ l) :
    (lookupAssoc (l.foldl ensureField fs) f).isSome := by
  induction l generalizing fs with
  | nil => cases h
  | cons g l ih =>
    simp only [List.foldl_cons]
    rcases List.mem_cons.mp h with hg | hl
    · subst hg
      exact lookup_foldl_ensure_isSome_mono l (ensureField fs f) f
        (lookup_ensureField_self fs f)
    · exact ih (ensureField fs g) hl

theorem ensureFields_present (fs : List (String × JVal)) (f : String)
    (h : f ∈ requiredFields) : (lookupAssoc (ensureFields fs) f).isSome :=
  lookup_foldl_ensure_mem requiredFields fs f h

theorem ensureFields_isSome_mono (fs : List (String × JVal)) (k : String)
    (h : (lookupAssoc fs k).isSome) :
    (lookupAssoc (ensureFields fs) k).isSome :=
  lookup_foldl_ensure_isSome_mono requiredFields fs k h

theorem ensureField_eq_self (fs : List (String × JVal)) (f : String)
    (h : (lookupAssoc fs f).isSome) : ensureField fs f = fs := by
  simp [ensureField, h]

theorem ensureFields_eq_self (fs : List (String × JVal))
    (h : ∀ f ∈ requiredFields, (lookupAssoc fs f).isSome) :
    ensureFields fs = fs := by
  unfold ensureFields
  have main : ∀ l : List String, (∀ f ∈ l, (lookupAssoc fs f).isSome) →
      l.foldl ensureField fs = fs := by
    intro l
    induction l with
    | nil => intro _; rfl
    | cons g tl ih =>
      intro hl
      have hg : (lookupAssoc fs g).isSome := hl g (by simp)
      simp only [List.foldl_cons, ensureField_eq_self fs g hg]
      exact ih (fun f hf => hl f (List.mem_cons_of_mem g hf))
  exact main requiredFields h

theorem dropWhile_head_false (p : Char → Bool) (l : List Char) (c : Char)
    (h : (l.dropWhile p).head? = some c) : p c = false := by
  induction l with
  | nil => simp [List.dropWhile] at h
  | cons a t ih =>
    rw [List.dropWhile_cons] at h
    by_cases hp : p a
    · simp only [hp, if_true] at h
      exact ih h
    · simp only [hp, Bool.false_eq_true, if_false, List.head?_cons,
        Option.some.injEq] at h
      subst h
      exact Bool.eq_false_iff.mpr hp

theorem dropWhile_idem (p : Char → Bool) (l : List Char) :
    (l.dropWhile p).dropWhile p = l.dropWhile p := by
  cases hh : l.dropWhile p with
  | nil => rfl
  | cons c t =>
    have hc : p c = false := dropWhile_head_false p l c (by rw [hh]; rfl)
    rw [List.dropWhile_cons, hc]
    simp

theorem dropWhile_is_suffix (p : Char → Bool) (l : List Char) :
    ∃ u, l = u ++ l.dropWhile p := by
  induction l with
  | nil => exact ⟨[], rfl⟩
  | cons a t ih =>
    rw [List.dropWhile_cons]
    by_cases hp : p a
    · obtain ⟨u, hu⟩ := ih
      exact ⟨a :: u, by simp [hp, ← hu]⟩
    · exact ⟨[], by simp [hp]⟩

theorem pyStrip_idem (l : List Char) : pyStrip (pyStrip l) = pyStrip l := by
  unfold pyStrip
  set s := isSpaceChar with hs
  set A := l.dropWhile s with hA
  set R := A.reverse.dropWhile s with hR
  have hBrev : R.reverse.reverse = R := List.reverse_reverse R
  have claim1 : R.reverse.dropWhile s = R.reverse := by
    cases hB : R.reverse with
    | nil => rfl
    | cons c t =>
      obtain ⟨u, hu⟩ := dropWhile_is_suffix s A.reverse
      rw [← hR] at hu
      have hAform : A = R.reverse ++ u.reverse := by
        have := congrArg List.reverse hu
        simpa using this
      have hAhead : A.head? = some c := by
        rw [hAform, hB]
        rfl
      have hc : s c = false := dropWhile_head_false s l c (by rw [← hA]; exact hAhead)
      rw [List.dropWhile_cons, hc]
      simp
  rw [claim1, hBrev, dropWhile_idem]

theorem pyStrip_cons_of_head (c : Char) (t : List Char)
    (hc : isSpaceChar c = false) : ∃ t', pyStrip (c :: t) = c :: t' := by
  unfold pyStrip
  rw [List.dropWhile_cons, hc]
  simp only [Bool.false_eq_true, if_false, List.reverse_cons]
  rw [List.dropWhile_append]
  by_cases he : (t.reverse.dropWhile isSpaceChar).isEmpty
  · refine ⟨[], ?_⟩
    simp [he, List.dropWhile_cons, hc]
  · refine ⟨(t.reverse.dropWhile isSpaceChar).reverse, ?_⟩
    simp [he]

theorem dedupFirstAux_sublist {α : Type} [DecidableEq α] (l seen : List α) :
    List.Sublist (dedupFirstAux seen l) l := by
  induction l generalizing seen with
  | nil => simp [dedupFirstAux]
  | cons x xs ih =>
    unfold dedupFirstAux
    by_cases hx : x ∈ seen
    · rw [if_pos hx]
      exact (ih seen).cons x
    · rw [if_neg hx]
      exact (ih (x :: seen)).cons₂ x

theorem dedupFirst_sublist {α : Type} [DecidableEq α] (l : List α) :
    List.Sublist (dedupFirst l) l := dedupFirstAux_sublist l []

theorem dedupFirstAux_not_seen {α : Type} [DecidableEq α] (l seen : List α)
    (x : α) (h : x ∈ dedupFirstAux seen l) : x ∉ seen := by
  induction l generalizing seen with
  | nil => simp [dedupFirstAux] at h
  | cons y ys ih =>
    unfold dedupFirstAux at h
    by_cases hy : y ∈ seen
    · rw [if_pos hy] at h
      exact ih seen h
    · rw [if_neg hy] at h
      rcases List.mem_cons.mp h with rfl | htail
      · exact hy
      · have := ih (y :: seen) htail
        exact fun hs => this (List.mem_cons_of_mem y hs)

theorem dedupFirstAux_nodup {α : Type} [DecidableEq α] (l seen : List α) :
    (dedupFirstAux seen l).Nodup := by
  induction l generalizing seen with
  | nil => simp [dedupFirstAux]
  | cons y ys ih =>
    unfold dedupFirstAux
    by_cases hy : y ∈ seen
    · rw [if_pos hy]
      exact ih seen
    · rw [if_neg hy]
      refine List.nodup_cons.mpr ⟨fun hmem => ?_, ih (y :: seen)⟩
      exact dedupFirstAux_not_seen ys (y :: seen) y hmem (by simp)

theorem dedupFirst_nodup {α : Type} [DecidableEq α] (l : List α) :
    (dedupFirst l).Nodup := dedupFirstAux_nodup l []

theorem dedupFirstAux_eq_self {α : Type} [DecidableEq α] (l seen : List α)
    (h : l.Nodup) (hdisj : ∀ x ∈ l, x ∉ seen) :
    dedupFirstAux seen l = l := by
  induction l generalizing seen with
  | nil => simp [dedupFirstAux]
  | cons y ys ih =>
    obtain ⟨hy, hnd⟩ := List.nodup_cons.mp h
    unfold dedupFirstAux
    rw [if_neg (hdisj y (by simp))]
    congr 1
    apply ih (y :: seen) hnd
    intro x hx
    intro hmem
    rcases List.mem_cons.mp hmem with rfl | hs
    · exact hy hx
    · exact hdisj x (List.mem_cons_of_mem y hx) hs

theorem dedupFirst_eq_self {α : Type} [DecidableEq α] (l : List α)
    (h : l.Nodup) : dedupFirst l = l :=
  dedupFirstAux_eq_self l [] h (by simp)

theorem cleanParticipants_nodup (l : List String) :
    (cleanParticipants l).Nodup := dedupFirst_nodup _

theorem mem_cleanParticipants (l : List String) (x : String)
    (h : x ∈ cleanParticipants l) :
    keepChars x.data = true ∧ pyStrip x.data = x.data := by
  have hx := (dedupFirst_sublist _).subset h
  rcases List.mem_filterMap.mp hx with ⟨s, _, hs⟩
  unfold cleanStep at hs
  by_cases hk : keepChars (pyStrip s.data)
  · simp only [hk, if_true] at hs
    have hx2 : String.mk (pyStrip s.data) = x := by injection hs
    subst hx2
    exact ⟨hk, pyStrip_idem s.data⟩
  · simp [hk] at hs

theorem keepChars_not_junk (t : List Char) (h : keepChars t = true) :
    String.mk (lowerAll t) ∉ junkWords := by
  unfold keepChars at h
  simp only [Bool.and_eq_true, Bool.not_eq_true', decide_eq_false_iff_not] at h
  exact h.1.2

theorem stringMk_data (s : String) : String.mk s.data = s := by
  cases s
  rfl

theorem filterMap_eq_self_of {α : Type} (f : α → Option α) (l : List α)
    (h : ∀ x ∈ l, f x = some x) : l.filterMap f = l := by
  induction l with
  | nil => rfl
  | cons a t ih =>
    rw [List.filterMap_cons, h a (by simp)]
    rw [ih (fun x hx => h x (List.mem_cons_of_mem a hx))]

theorem cleanStep_of_clean (l : List String) (x : String)
    (h : x ∈ cleanParticipants l) : cleanStep x = some x := by
  obtain ⟨hk, hstrip⟩ := mem_cleanParticipants l x h
  simp [cleanStep, hstrip, hk, stringMk_data]

theorem cleanParticipants_idem (l : List String) :
    cleanParticipants (cleanParticipants l) = cleanParticipants l := by
  show dedupFirst (List.filterMap cleanStep (cleanParticipants l)) =
    cleanParticipants l
  rw [filterMap_eq_self_of cleanStep (cleanParticipants l)
    (cleanStep_of_clean l)]
  exact dedupFirst_eq_self _ (cleanParticipants_nodup l)

theorem strListE_map_str (ps : List String) :
    strListE (ps.map JVal.str) = .ok ps := by
  induction ps with
  | nil => rfl
  | cons s t ih => simp [strListE, ih, Except.map]

theorem cleanParticipantsJ_ok (v : JVal) (l : List String)
    (h : cleanParticipantsJ v = .ok l) :
    ∃ src, l = cleanParticipants src := by
  cases v with
  | arr xs =>
    simp only [cleanParticipantsJ] at h
    cases hm : strListE xs with
    | error e => rw [hm] at h; simp [Except.map] at h
    | ok ss =>
      rw [hm] at h
      simp [Except.map] at h
      exact ⟨ss, h.symm⟩
  | str s =>
    simp only [cleanParticipantsJ, Except.ok.injEq] at h
    exact ⟨_, h.symm⟩
  | obj fs =>
    simp only [cleanParticipantsJ, Except.ok.injEq] at h
    exact ⟨_, h.symm⟩
  | null => simp [cleanParticipantsJ] at h
  | bool b => simp [cleanParticipantsJ] at h
  | num q => simp [cleanParticipantsJ] at h

/-- A list of strings that is an output of the participant-cleaning rule. -/
def cleanedList (l : List String) : Prop :=
  ∃ src, l = cleanParticipants src

theorem cleanedList_nodup (l : List String) (h : cleanedList l) : l.Nodup := by
  obtain ⟨src, rfl⟩ := h
  exact cleanParticipants_nodup src

theorem cleanedList_not_junk (l : List String) (h : cleanedList l) :
    ∀ x ∈ l, String.mk (lowerAll x.data) ∉ junkWords := by
  obtain ⟨src, rfl⟩ := h
  intro x hx
  exact keepChars_not_junk x.data (mem_cleanParticipants src x hx).1

theorem cleanParticipantsField_isSome (fs1 fs2 : List (String × JVal))
    (k : String) (h : cleanParticipantsField fs1 = .ok fs2)
    (hk : (lookupAssoc fs1 k).isSome) : (lookupAssoc fs2 k).isSome := by
  unfold cleanParticipantsField at h
  by_cases hp : jTruthy ((lookupAssoc fs1 "participants").getD .null)
  · rw [if_pos hp] at h
    cases hc : cleanParticipantsJ ((lookupAssoc fs1 "participants").getD .null) with
    | error e => rw [hc] at h; simp [Except.map] at h
    | ok cl =>
      rw [hc] at h
      simp only [Except.map, Except.ok.injEq] at h
      rw [← h]
      exact lookup_setAssoc_isSome fs1 _ k _ hk
  · rw [if_neg hp] at h
    injection h with h2
    rwa [← h2]

theorem backfillParticipants_isSome (fs : List (String × JVal)) (t : String)
    (k : String) (hk : (lookupAssoc fs k).isSome) :
    (lookupAssoc (backfillParticipants fs t) k).isSome := by
  unfold backfillParticipants
  by_cases hp : jTruthy ((lookupAssoc fs "participants").getD .null)
  · rwa [if_pos hp]
  · rw [if_neg hp]
    exact lookup_setAssoc_isSome fs _ k _ hk

theorem backfillActions_isSome (fs : List (String × JVal)) (t : String)
    (k : String) (hk : (lookupAssoc fs k).isSome) :
    (lookupAssoc (backfillActions fs t) k).isSome := by
  unfold backfillActions
  by_cases hp : jTruthy ((lookupAssoc fs "actionItems").getD .null)
  · rwa [if_pos hp]
  · rw [if_neg hp]
    exact lookup_setAssoc_isSome fs _ k _ hk

theorem backfillActions_lookup_participants (fs : List (String × JVal))
    (t : String) :
    lookupAssoc (backfillActions fs t) "participants" =
      lookupAssoc fs "participants" := by
  unfold backfillActions
  by_cases hp : jTruthy ((lookupAssoc fs "actionItems").getD .null)
  · rw [if_pos hp]
  · rw [if_neg hp]
    exact lookup_setAssoc_ne fs "actionItems" "participants" _ (by decide)

theorem participants_spec (fs1 : List (String × JVal)) (t : String)
    (fs2 : List (String × JVal)) (h : cleanParticipantsField fs1 = .ok fs2) :
    ∃ l, cleanedList l ∧
      lookupAssoc (backfillParticipants fs2 t) "participants" =
        some (.arr (l.map JVal.str)) := by
  unfold cleanParticipantsField at h
  by_cases hp : jTruthy ((lookupAssoc fs1 "participants").getD .null)
  · rw [if_pos hp] at h
    cases hc : cleanParticipantsJ ((lookupAssoc fs1 "participants").getD .null) with
    | error e => rw [hc] at h; simp [Except.map] at h
    | ok cl =>
      rw [hc] at h
      simp only [Except.map, Except.ok.injEq] at h
      have hlook : lookupAssoc fs2 "participants" = some (.arr (cl.map .str)) := by
        rw [← h]
        exact lookup_setAssoc_self fs1 _ _
      unfold backfillParticipants
      rw [hlook]
      by_cases ht : jTruthy (.arr (cl.map JVal.str))
      · rw [if_pos (by simpa using ht)]
        exact ⟨cl, cleanParticipantsJ_ok _ cl hc, hlook⟩
      · rw [if_neg (by simpa using ht)]
        exact ⟨extractParticipantsFallback t, ⟨_, rfl⟩,
          lookup_setAssoc_self fs2 _ _⟩
  · rw [if_neg hp] at h
    injection h with h2
    subst h2
    unfold backfillParticipants
    rw [if_neg hp]
    exact ⟨extractParticipantsFallback t, ⟨_, rfl⟩,
      lookup_setAssoc_self fs1 _ _⟩

set_option maxHeartbeats 1000000 in
theorem validate_ok_spec (j : JVal) (t : String) (out : JVal)
    (h : validateAndEnhance j t = .ok out) :
    ∃ fs0 fs4, j = .obj fs0 ∧ out = .obj fs4 ∧
      (∀ f ∈ requiredFields, (lookupAssoc fs4 f).isSome) ∧
      (∀ k, (lookupAssoc fs0 k).isSome → (lookupAssoc fs4 k).isSome) ∧
      (∃ l, cleanedList l ∧
        lookupAssoc fs4 "participants" = some (.arr (l.map JVal.str))) := by
  cases j with
  | obj fs0 =>
    simp only [validateAndEnhance] at h
    cases hc : cleanParticipantsField (ensureFields fs0) with
    | error e => rw [hc] at h; simp at h
    | ok fs2 =>
      rw [hc] at h
      have h2 : Except.ok (ε := String)
          (JVal.obj (backfillActions (backfillParticipants fs2 t) t)) =
          Except.ok out := h
      injection h2 with h3
      refine ⟨fs0, backfillActions (backfillParticipants fs2 t) t, rfl,
        h3.symm, ?_, ?_, ?_⟩
      · intro f hf
        exact backfillActions_isSome _ t f (backfillParticipants_isSome fs2 t f
          (cleanParticipantsField_isSome _ fs2 f hc
            (ensureFields_present fs0 f hf)))
      · intro k hk
        exact backfillActions_isSome _ t k (backfillParticipants_isSome fs2 t k
          (cleanParticipantsField_isSome _ fs2 k hc
            (ensureFields_isSome_mono fs0 k hk)))
      · obtain ⟨l, hcl, hlook⟩ := participants_spec (ensureFields fs0) t fs2 hc
        exact ⟨l, hcl, by rw [backfillActions_lookup_participants]; exact hlook⟩
  | null => simp [validateAndEnhance] at h
  | bool b => simp [validateAndEnhance] at h
  | num q => simp [validateAndEnhance] at h
  | str s => simp [validateAndEnhance] at h
  | arr xs => simp [validateAndEnhance] at h

theorem except_bind_ok {ε α β : Type} (m : Except ε α) (f : α → Except ε β)
    (b : β) (h : (m >>= f) = .ok b) : ∃ a, m = .ok a ∧ f a = .ok b := by
  cases m with
  | error e => simp [Bind.bind, Except.bind] at h
  | ok a => exact ⟨a, rfl, by simpa [Bind.bind, Except.bind] using h⟩

theorem aiProcess_ok (parse : String → Except String JVal)
    (reply : Except String String) (now : String) (j : JVal)
    (h : aiProcess parse reply now = .ok j) :
    ∃ fs, j = .obj fs ∧ (lookupAssoc fs "processed_at").isSome ∧
      (lookupAssoc fs "model_used").isSome := by
  unfold aiProcess at h
  obtain ⟨text, hr, h⟩ := except_bind_ok _ _ _ h
  obtain ⟨j0, hp, h⟩ := except_bind_ok _ _ _ h
  obtain ⟨o1, h1, h2⟩ := except_bind_ok _ _ _ h
  cases j0 with
  | obj fs0 =>
    simp only [jSetKey, Except.ok.injEq] at h1
    subst h1
    simp only [jSetKey, Except.ok.injEq] at h2
    refine ⟨_, h2.symm, ?_, ?_⟩
    · rw [lookup_setAssoc_ne _ "model_used" "processed_at" _ (by decide)]
      rw [lookup_setAssoc_self]
      rfl
    · rw [lookup_setAssoc_self]
      rfl
  | null => simp [jSetKey] at h1
  | bool b => simp [jSetKey] at h1
  | num q => simp [jSetKey] at h1
  | str s => simp [jSetKey] at h1
  | arr xs => simp [jSetKey] at h1

/-- C1: for every transcript and every outcome of the primary path
(transport result and parse function), `process_transcript` returns
normally — internal failures degrade to the fallback path — and the
returned value is always a complete `MinutesRecord`: a JSON object carrying
the six content fields together with `processed_at` and `model_used`. -/
theorem c1_process_total_and_complete (parse : String → Except String JVal)
    (reply : Except String String) (t now : String) :
    completeRecord (processTranscript parse reply t now) = true := by
  unfold processTranscript
  cases hres : aiProcess parse reply now >>= (fun r => validateAndEnhance r t) with
  | error e => rfl
  | ok out =>
    obtain ⟨jv, haip, hval⟩ := except_bind_ok _ _ _ hres
    obtain ⟨fs0, fs4, hj, hout, hreq, hmono, _⟩ := validate_ok_spec jv t out hval
    obtain ⟨fsA, hjA, hpa, hmu⟩ := aiProcess_ok parse reply now jv haip
    rw [hj] at hjA
    injection hjA with hEq
    subst hEq
    subst hout
    simp only [completeRecord]
    rw [List.all_eq_true]
    intro f hf
    rcases List.mem_append.mp hf with h6 | hstamp
    · exact hreq f h6
    · have hor : f = "processed_at" ∨ f = "model_used" := by simpa using hstamp
      rcases hor with rfl | rfl
      · exact hmono _ hpa
      · exact hmono _ hmu

/-- C2 (amended): every record returned by `process_transcript` carries
all six content fields, and its `participants` field is a list of strings
with no duplicates and no entry whose lowercased form is a stop word.  The
original claim additionally asserted that all six fields are sequences,
which the code does not enforce for fields other than `participants`. -/
theorem c2_amended_fields_and_participants (parse : String → Except String JVal)
    (reply : Except String String) (t now : String) :
    sixFieldsPresent (processTranscript parse reply t now) ∧
      participantsClean (processTranscript parse reply t now) := by
  unfold processTranscript
  cases hres : aiProcess parse reply now >>= (fun r => validateAndEnhance r t) with
  | error e =>
    constructor
    · refine ⟨_, rfl, ?_⟩
      intro f hf
      fin_cases hf <;> rfl
    · refine ⟨_, extractParticipantsFallback t, rfl, rfl, ?_, ?_⟩
      · exact cleanParticipants_nodup _
      · intro x hx
        exact keepChars_not_junk x.data (mem_cleanParticipants _ x hx).1
  | ok out =>
    obtain ⟨jv, haip, hval⟩ := except_bind_ok _ _ _ hres
    obtain ⟨fs0, fs4, hj, hout, hreq, hmono, hpart⟩ :=
      validate_ok_spec jv t out hval
    obtain ⟨l, hcl, hlook⟩ := hpart
    subst hout
    exact ⟨⟨fs4, rfl, hreq⟩,
      ⟨fs4, l, rfl, hlook, cleanedList_nodup l hcl, cleanedList_not_junk l hcl⟩⟩

/-- C3: whenever the primary path throws (here: the transport call fails),
`process_transcript` returns exactly the fixed fallback record — the fixed
two-line summary, no decisions, the fixed agenda and topics entries, the
two fallback extractions over the transcript, the current timestamp and
`model_used = "fallback/regex"`. -/
theorem c3_full_fallback_record (parse : String → Except String JVal)
    (t now e : String) :
    processTranscript parse (.error e) t now =
      .obj
        [("summary",
          .arr [.str "Meeting transcript processed with fallback method",
                .str "AI processing temporarily unavailable"]),
         ("decisions", .arr []),
         ("agenda", .arr [.str "General discussion"]),
         ("participants", .arr ((extractParticipantsFallback t).map .str)),
         ("topics", .arr [.obj [("topic", .str "General meeting discussion"),
                                ("confidence", .num (7 / 10))]]),
         ("actionItems",
          .arr ((extractActionItemsFallback t).map ActionItem.toJVal)),
         ("processed_at", .str now),
         ("model_used", .str "fallback/regex")] := rfl

/-- C8: the participant-cleaning rule is idempotent: cleaning an
already-cleaned list changes nothing. -/
theorem c8_clean_participants_idempotent (l : List String) :
    cleanParticipants (cleanParticipants l) = cleanParticipants l := by
  show dedupFirst (List.filterMap cleanStep (cleanParticipants l)) =
    cleanParticipants l
  rw [filterMap_eq_self_of cleanStep (cleanParticipants l)
    (cleanStep_of_clean l)]
  exact dedupFirst_eq_self _ (cleanParticipants_nodup l)

/-- C10: on any instance that the constructor actually produced (the
credential was present and nonempty), `health_check` reports the fixed
healthy status with the model identifier `openai/gpt-4o-mini`; the
unhealthy branch cannot be reached. -/
theorem c10_health_check_healthy (envKey : Option String) (s : Service)
    (now : String) (h : mkService envKey = .ok s) :
    healthCheck s now =
      { status := "healthy", model := "openai/gpt-4o-mini",
        has_api_key := true, timestamp := now } := by
  cases envKey with
  | none => simp [mkService] at h
  | some k =>
    by_cases hk : k = ""
    · simp [mkService, hk] at h
    · simp only [mkService, hk, if_false, Except.ok.injEq] at h
      subst h
      simp [healthCheck, hk, modelIdent]

theorem c10_health_check_healthy_witness :
    healthCheck { api_key := "key" } "2026-10-12T00:00:00" =
      { status := "healthy", model := "openai/gpt-4o-mini",
        has_api_key := true, timestamp := "2026-10-12T00:00:00" } :=
  c10_health_check_healthy (some "key") { api_key := "key" }
    "2026-10-12T00:00:00" rfl

/-- C6: on the fixed transcript `Team: Let's meet. Date: Monday. Alice:
Good morning.` the fallback participant extraction returns exactly
`["Alice"]`, rejecting `Team` and `Date` through the stop-word filter. -/
theorem c6_participants_fixed_transcript :
    extractParticipantsFallback
      ("Team: Let" ++ apos ++ "s meet. Date: Monday. Alice: Good morning.") =
      ["Alice"] := by
  decide

/-- C5 (counterexample): on the fixed transcript the fallback action-item
extraction yields no item owned by `Alice` containing the claimed task
(and no item owned by `Bob`): the claim is false on the code. -/
theorem c5_counterexample :
    ¬ ((∃ a ∈ extractActionItemsFallback
          "Alice: I will finish the report by Friday. Bob: I agreed to review it.",
        a.owner = "Alice" ∧
        containsSub "finish the report by Friday".data a.task.data = true ∧
        a.status = "Pending" ∧ a.deadline = "Not specified") ∧
       (∃ b ∈ extractActionItemsFallback
          "Alice: I will finish the report by Friday. Bob: I agreed to review it.",
        b.owner = "Bob" ∧ containsSub "review it".data b.task.data = true)) := by
  decide

/-- C5 (amended): on that transcript the fallback action-item extraction
returns the empty list — the pronoun subject `I` that follows each speaker
colon cannot match the name anchor of any action pattern, so no action
item is produced at all. -/
theorem c5_amended_extraction_empty :
    extractActionItemsFallback
      "Alice: I will finish the report by Friday. Bob: I agreed to review it." =
      [] := by
  decide

/-- C7 (counterexample): because `re.IGNORECASE` applies to the whole
pattern, the name anchor also matches a lowercase subject: on
`alice will do x.` the extraction produces an owner whose first character
is not uppercase, refuting the claim. -/
theorem c7_counterexample :
    ¬ (∀ a ∈ extractActionItemsFallback "alice will do x.",
        (match a.owner.data with
         | c :: _ => isUpperA c
         | [] => false) = true) := by
  decide

theorem isUpperA_isLetterA (c : Char) (h : isUpperA c = true) :
    isLetterA c = true := by
  simp [isLetterA, h]

theorem isLetterA_not_space (c : Char) (h : isLetterA c = true) :
    isSpaceChar c = false := by
  have h' : (65 ≤ c.toNat ∧ c.toNat ≤ 90) ∨ (97 ≤ c.toNat ∧ c.toNat ≤ 122) := by
    simpa [isLetterA, isUpperA, isLowerA, Bool.or_eq_true, Bool.and_eq_true,
      decide_eq_true_eq] using h
  simp only [isSpaceChar, Bool.or_eq_false_iff, decide_eq_false_iff_not]
  omega

theorem nameWord_shape (ci : Bool) (cs n r : List Char)
    (h : nameWord ci cs = some (n, r)) :
    ∃ c w, n = c :: w ∧ isLetterA c = true := by
  cases cs with
  | nil => simp [nameWord] at h
  | cons c cs' =>
    simp only [nameWord] at h
    by_cases hf : (if ci = true then isLetterA c else isUpperA c) = true
    · rw [if_pos hf] at h
      by_cases hw : (cs'.takeWhile
          (fun d => if ci = true then isLetterA d else isLowerA d)).isEmpty
      · rw [if_pos hw] at h
        cases h
      · rw [if_neg hw] at h
        injection h with h2
        have hn := congrArg Prod.fst h2
        refine ⟨c, _, hn.symm, ?_⟩
        cases ci with
        | true => simpa using hf
        | false => exact isUpperA_isLetterA c (by simpa using hf)
    · rw [if_neg hf] at h
      cases h

theorem nameExtsAux_acc_prefix (ci : Bool) (fuel : Nat)
    (acc rest : List Char) (p : List Char × List Char)
    (h : p ∈ nameExtsAux ci fuel acc rest) : ∃ suf, p.1 = acc ++ suf := by
  induction fuel generalizing acc rest with
  | zero =>
    simp [nameExtsAux] at h
    exact ⟨[], by simp [h]⟩
  | succ n ih =>
    unfold nameExtsAux at h
    by_cases hws : (rest.takeWhile isSpaceChar).isEmpty
    · rw [if_pos hws] at h
      simp at h
      exact ⟨[], by simp [h]⟩
    · rw [if_neg hws] at h
      cases hnw : nameWord ci (rest.dropWhile isSpaceChar) with
      | none =>
        rw [hnw] at h
        simp at h
        exact ⟨[], by simp [h]⟩
      | some wr =>
        obtain ⟨w, r2⟩ := wr
        rw [hnw] at h
        rcases List.mem_append.mp h with hrec | hbase
        · obtain ⟨suf, hsuf⟩ := ih _ _ hrec
          exact ⟨rest.takeWhile isSpaceChar ++ w ++ suf, by
            rw [hsuf]; simp⟩
        · simp at hbase
          exact ⟨[], by simp [hbase]⟩

theorem nameCandidates_head_letter (ci : Bool) (cs : List Char)
    (p : List Char × List Char) (h : p ∈ nameCandidates ci cs) :
    ∃ c w, p.1 = c :: w ∧ isLetterA c = true := by
  unfold nameCandidates at h
  cases hnw : nameWord ci cs with
  | none => rw [hnw] at h; cases h
  | some wr =>
    obtain ⟨w0, r0⟩ := wr
    rw [hnw] at h
    obtain ⟨c, w, hw, hc⟩ := nameWord_shape ci cs w0 r0 hnw
    obtain ⟨suf, hsuf⟩ := nameExtsAux_acc_prefix ci r0.length w0 r0 p h
    exact ⟨c, w ++ suf, by rw [hsuf, hw]; simp, hc⟩

theorem firstSome_eq_some {α β : Type} (l : List α) (f : α → Option β)
    (b : β) (h : firstSome l f = some b) : ∃ a ∈ l, f a = some b := by
  induction l with
  | nil => simp [firstSome] at h
  | cons a l ih =>
    unfold firstSome at h
    cases hf : f a with
    | some b' =>
      rw [hf] at h
      injection h with h2
      exact ⟨a, by simp, by rw [hf, h2]⟩
    | none =>
      rw [hf] at h
      obtain ⟨a', ha', hfa'⟩ := ih h
      exact ⟨a', List.mem_cons_of_mem a ha', hfa'⟩

theorem scanAux_prop {α : Type} (tryHere : List Char → Option (α × List Char))
    (P : α → Prop)
    (hP : ∀ cs a rest, tryHere cs = some (a, rest) → P a) :
    ∀ fuel cs, ∀ a ∈ scanAux tryHere fuel cs, P a := by
  intro fuel
  induction fuel with
  | zero => intro cs a h; simp [scanAux] at h
  | succ n ih =>
    intro cs a h
    cases cs with
    | nil => simp [scanAux] at h
    | cons c cs' =>
      unfold scanAux at h
      cases htry : tryHere (c :: cs') with
      | some pr =>
        obtain ⟨a', rest⟩ := pr
        rw [htry] at h
        rcases List.mem_cons.mp h with rfl | htail
        · exact hP _ _ _ htry
        · exact ih rest a htail
      | none =>
        rw [htry] at h
        exact ih cs' a h

theorem tryA1_owner (cs : List Char) (p : List Char × List Char)
    (rest : List Char) (h : tryA1 cs = some (p, rest)) :
    ∃ c w, p.1 = c :: w ∧ isLetterA c = true := by
  unfold tryA1 at h
  obtain ⟨cand, hmem, hf⟩ := firstSome_eq_some _ _ _ h
  cases hca : contAction verbsModal cand.2 with
  | none => rw [hca] at hf; cases hf
  | some q =>
    rw [hca] at hf
    have hf' : some ((cand.1, q.1), q.2) = some (p, rest) := hf
    injection hf' with hf2
    have hp : (cand.1, q.1) = p := congrArg Prod.fst hf2
    obtain ⟨c, w, hw, hc⟩ := nameCandidates_head_letter true cs cand hmem
    exact ⟨c, w, by rw [← hp]; exact hw, hc⟩

theorem tryA3_owner (cs : List Char) (p : List Char × List Char)
    (rest : List Char) (h : tryA3 cs = some (p, rest)) :
    ∃ c w, p.1 = c :: w ∧ isLetterA c = true := by
  unfold tryA3 at h
  obtain ⟨cand, hmem, hf⟩ := firstSome_eq_some _ _ _ h
  cases hca : contAction verbsAgreed cand.2 with
  | none => rw [hca] at hf; cases hf
  | some q =>
    rw [hca] at hf
    have hf' : some ((cand.1, q.1), q.2) = some (p, rest) := hf
    injection hf' with hf2
    have hp : (cand.1, q.1) = p := congrArg Prod.fst hf2
    obtain ⟨c, w, hw, hc⟩ := nameCandidates_head_letter true cs cand hmem
    exact ⟨c, w, by rw [← hp]; exact hw, hc⟩

theorem tryA2_owner (cs : List Char) (p : List Char × List Char)
    (rest : List Char) (h : tryA2 cs = some (p, rest)) :
    ∃ c w, p.1 = c :: w ∧ isLetterA c = true := by
  cases hsl : stripLit true "Action item".data cs with
  | none => simp [tryA2, hsl] at h
  | some r0 =>
    simp only [tryA2, hsl] at h
    split at h
    · obtain ⟨cand, hmem, hf⟩ := firstSome_eq_some _ _ _ h
      cases hca : contAction verbsModal cand.2 with
      | none => rw [hca] at hf; cases hf
      | some q =>
        rw [hca] at hf
        have hf' : some ((cand.1, q.1), q.2) = some (p, rest) := hf
        injection hf' with hf2
        have hp : (cand.1, q.1) = p := congrArg Prod.fst hf2
        obtain ⟨c, w, hw, hc⟩ :=
          nameCandidates_head_letter true _ cand hmem
        exact ⟨c, w, by rw [← hp]; exact hw, hc⟩
    · cases h

/-- C7 (amended): every action item produced by the fallback extraction
has an owner anchored on a letter-word subject, but because
`re.IGNORECASE` applies to the whole pattern the anchor is
case-insensitive like the verbs: the owner always starts with an ASCII
letter of either case, not necessarily an uppercase one. -/
theorem c7_amended_owner_letter_anchor (t : String) (a : ActionItem)
    (h : a ∈ extractActionItemsFallback t) :
    ∃ c w, a.owner.data = c :: w ∧ isLetterA c = true := by
  unfold extractActionItemsFallback at h
  rcases List.mem_map.mp h with ⟨p, hp, hmk⟩
  have hshape : ∃ c w, p.1 = c :: w ∧ isLetterA c = true := by
    rcases List.mem_append.mp hp with h12 | h3
    · rcases List.mem_append.mp h12 with h1 | h2
      · exact scanAux_prop tryA1
          (fun q => ∃ c w, q.1 = c :: w ∧ isLetterA c = true)
          (fun cs q r hq => tryA1_owner cs q r hq) _ _ p h1
      · exact scanAux_prop tryA2
          (fun q => ∃ c w, q.1 = c :: w ∧ isLetterA c = true)
          (fun cs q r hq => tryA2_owner cs q r hq) _ _ p h2
    · exact scanAux_prop tryA3
        (fun q => ∃ c w, q.1 = c :: w ∧ isLetterA c = true)
        (fun cs q r hq => tryA3_owner cs q r hq) _ _ p h3
  obtain ⟨c, w, hw, hc⟩ := hshape
  obtain ⟨t', ht'⟩ := pyStrip_cons_of_head c w (isLetterA_not_space c hc)
  refine ⟨c, t', ?_, hc⟩
  rw [← hmk]
  show pyStrip p.1 = c :: t'
  rw [hw]
  exact ht'

theorem c7_amended_owner_letter_anchor_witness :
    ({ task := "do x", owner := "alice", deadline := "Not specified",
       status := "Pending" } : ActionItem) ∈
        extractActionItemsFallback "alice will do x." ∧
      ∃ c w, ("alice" : String).data = c :: w ∧ isLetterA c = true :=
  ⟨by decide,
   c7_amended_owner_letter_anchor "alice will do x."
     { task := "do x", owner := "alice", deadline := "Not specified",
       status := "Pending" } (by decide)⟩

theorem nameWord_none_of_no_letter (ci : Bool) (cs : List Char)
    (h : ∀ c ∈ cs, isLetterA c = false) : nameWord ci cs = none := by
  cases cs with
  | nil => rfl
  | cons c cs' =>
    have hc : isLetterA c = false := h c (by simp)
    have hu : isUpperA c = false := by
      cases hup : isUpperA c
      · rfl
      · rw [isUpperA_isLetterA c hup] at hc; cases hc
    simp only [nameWord]
    rw [if_neg]
    cases ci <;> simp [hc, hu]

theorem nameCandidates_nil_of_no_letter (ci : Bool) (cs : List Char)
    (h : ∀ c ∈ cs, isLetterA c = false) : nameCandidates ci cs = [] := by
  unfold nameCandidates
  rw [nameWord_none_of_no_letter ci cs h]

theorem stripLit_mem (ci : Bool) (pat cs r : List Char)
    (h : stripLit ci pat cs = some r) : ∀ c ∈ r, c ∈ cs := by
  induction pat generalizing cs with
  | nil =>
    simp [stripLit] at h
    subst h
    exact fun c hc => hc
  | cons p ps ih =>
    cases cs with
    | nil => cases h
    | cons c0 cs' =>
      simp only [stripLit] at h
      by_cases he : eqCi ci p c0 = true
      · rw [if_pos he] at h
        intro c hc
        exact List.mem_cons_of_mem c0 (ih cs' h c hc)
      · rw [if_neg he] at h
        cases h

theorem dropWhile_mem (p : Char → Bool) (l : List Char) (c : Char)
    (h : c ∈ l.dropWhile p) : c ∈ l := by
  obtain ⟨u, hu⟩ := dropWhile_is_suffix p l
  rw [hu]
  exact List.mem_append_right u h

theorem tryP1_none (cs : List Char) (h : ∀ c ∈ cs, isLetterA c = false) :
    tryP1 cs = none := by
  unfold tryP1
  rw [nameCandidates_nil_of_no_letter false cs h]
  rfl

theorem tryP2_none (cs : List Char) (h : ∀ c ∈ cs, isLetterA c = false) :
    tryP2 cs = none := by
  unfold tryP2
  rw [nameCandidates_nil_of_no_letter false cs h]
  rfl

theorem tryA1_none (cs : List Char) (h : ∀ c ∈ cs, isLetterA c = false) :
    tryA1 cs = none := by
  unfold tryA1
  rw [nameCandidates_nil_of_no_letter true cs h]
  rfl

theorem tryA3_none (cs : List Char) (h : ∀ c ∈ cs, isLetterA c = false) :
    tryA3 cs = none := by
  unfold tryA3
  rw [nameCandidates_nil_of_no_letter true cs h]
  rfl

theorem tryA2_none (cs : List Char) (h : ∀ c ∈ cs, isLetterA c = false) :
    tryA2 cs = none := by
  cases hsl : stripLit true "Action item".data cs with
  | none => simp [tryA2, hsl]
  | some r0 =>
    have hr0 : ∀ c ∈ r0, isLetterA c = false :=
      fun c hc => h c (stripLit_mem true _ cs r0 hsl c hc)
    simp only [tryA2, hsl]
    split
    · rename_i r2 heq
      have hr2 : ∀ c ∈ r2, isLetterA c = false := by
        intro c hc
        have : c ∈ ':' :: r2 := List.mem_cons_of_mem _ hc
        rw [← heq] at this
        exact hr0 c (dropWhile_mem _ r0 c this)
      have hr3 : ∀ c ∈ r2.dropWhile isSpaceChar, isLetterA c = false :=
        fun c hc => hr2 c (dropWhile_mem _ r2 c hc)
      rw [nameCandidates_nil_of_no_letter true _ hr3]
      rfl
    · rfl

theorem scanAux_nil_of_none {α : Type}
    (tryHere : List Char → Option (α × List Char))
    (hnone : ∀ cs, (∀ c ∈ cs, isLetterA c = false) → tryHere cs = none) :
    ∀ fuel cs, (∀ c ∈ cs, isLetterA c = false) →
      scanAux tryHere fuel cs = [] := by
  intro fuel
  induction fuel with
  | zero => intro cs _; rfl
  | succ n ih =>
    intro cs h
    cases cs with
    | nil => rfl
    | cons c cs' =>
      unfold scanAux
      rw [hnone (c :: cs') h]
      exact ih cs' (fun d hd => h d (List.mem_cons_of_mem c hd))

/-- C9: on a transcript containing no letter at all — hence no
recognizable name or verb pattern — both fallback extractors return the
empty sequence (and, being total functions, they cannot raise). -/
theorem c9_no_letters_empty_extractions (s : String)
    (h : ∀ c ∈ s.data, isLetterA c = false) :
    extractParticipantsFallback s = [] ∧
      extractActionItemsFallback s = [] := by
  constructor
  · simp only [extractParticipantsFallback]
    rw [scanAux_nil_of_none tryP1 tryP1_none _ _ h,
      scanAux_nil_of_none tryP2 tryP2_none _ _ h]
    rfl
  · simp only [extractActionItemsFallback]
    rw [scanAux_nil_of_none tryA1 tryA1_none _ _ h,
      scanAux_nil_of_none tryA2 tryA2_none _ _ h,
      scanAux_nil_of_none tryA3 tryA3_none _ _ h]
    rfl

theorem c9_no_letters_empty_extractions_witness :
    (∀ c ∈ ("12 34 :: 56 !? ...".data), isLetterA c = false) ∧
      (extractParticipantsFallback "12 34 :: 56 !? ..." = [] ∧
        extractActionItemsFallback "12 34 :: 56 !? ..." = []) :=
  ⟨by decide, c9_no_letters_empty_extractions "12 34 :: 56 !? ..." (by decide)⟩

/-- C2 (counterexample): a primary-path reply carrying all six keys but a
numeric `summary` flows through validation untouched, so the returned
record has a `summary` field that is not a sequence: the claim that all
six content fields are sequences is false on the code. -/
theorem c2_counterexample :
    recordField (processTranscript parseSummaryNum (.ok "```json J ```")
        "zzz" "now") "summary" = some (.num 5) ∧
      ∀ xs : List JVal,
        recordField (processTranscript parseSummaryNum (.ok "```json J ```")
          "zzz" "now") "summary" ≠ some (.arr xs) := by
  refine ⟨rfl, ?_⟩
  intro xs h
  rw [show recordField (processTranscript parseSummaryNum (.ok "```json J ```")
      "zzz" "now") "summary" = some (.num 5) from rfl] at h
  simp at h

/-- C4 (counterexample): a fenced, fully-keyed reply whose `participants`
list is `["date"]` is not returned as-is: cleaning removes the stop word,
the fallback extractor runs over the transcript, and the returned record
differs from the parsed JSON plus stamps. -/
theorem c4_counterexample :
    recordField (processTranscript parseDateParticipant
        (.ok ("```json J ```")) "zzz" "now") "participants" =
      some (.arr []) ∧
    recordField (.obj (setAssoc (setAssoc fsDateParticipant "processed_at"
        (.str "now")) "model_used" (.str modelIdent))) "participants" =
      some (.arr [.str "date"]) ∧
    processTranscript parseDateParticipant (.ok ("```json J ```"))
        "zzz" "now" ≠
      .obj (setAssoc (setAssoc fsDateParticipant "processed_at"
        (.str "now")) "model_used" (.str modelIdent)) := by
  refine ⟨rfl, rfl, ?_⟩
  intro h
  have h2 : recordField (processTranscript parseDateParticipant
      (.ok ("```json J ```")) "zzz" "now") "participants" =
      recordField (.obj (setAssoc (setAssoc fsDateParticipant "processed_at"
        (.str "now")) "model_used" (.str modelIdent))) "participants" := by
    rw [h]
  rw [show recordField (processTranscript parseDateParticipant
      (.ok ("```json J ```")) "zzz" "now") "participants" =
      some (.arr []) from rfl] at h2
  rw [show recordField (.obj (setAssoc (setAssoc fsDateParticipant
      "processed_at" (.str "now")) "model_used" (.str modelIdent)))
      "participants" = some (.arr [.str "date"]) from rfl] at h2
  simp at h2

/-- C4 (amended): a fenced reply parsing to an object with all six
required keys whose `participants` survive cleaning unchanged and are
nonempty, and whose `actionItems` are truthy, is returned exactly as that
object plus the stamped `processed_at` and `model_used`, with no fallback
fields substituted. -/
theorem c4_amended_fenced_reply_stamped (parse : String → Except String JVal)
    (reply : String) (fs0 : List (String × JVal)) (ps : List String)
    (av : JVal) (t now : String)
    (hpre : isPre "```json".data (pyStrip reply.data) = true)
    (hsuf : isPre "```".data ((pyStrip reply.data).drop 7).reverse = true)
    (hparse : parse (String.mk (pyStrip
        (((pyStrip reply.data).drop 7).take
          (((pyStrip reply.data).drop 7).length - 3)))) = .ok (.obj fs0))
    (hfields : ∀ f ∈ requiredFields, (lookupAssoc fs0 f).isSome)
    (hp : lookupAssoc fs0 "participants" = some (.arr (ps.map .str)))
    (hclean : cleanParticipants ps = ps)
    (hne : ps ≠ [])
    (ha : lookupAssoc fs0 "actionItems" = some av)
    (hat : jTruthy av = true) :
    processTranscript parse (.ok reply) t now =
      .obj (setAssoc (setAssoc fs0 "processed_at" (.str now))
        "model_used" (.str modelIdent)) := by
  have htr : jTruthy (.arr (ps.map JVal.str)) = true := by
    cases ps with
    | nil => cases hne rfl
    | cons a l => simp [jTruthy]
  have hai : aiProcess parse (.ok reply) now =
      .ok (.obj (setAssoc (setAssoc fs0 "processed_at" (.str now))
        "model_used" (.str modelIdent))) := by
    simp only [aiProcess, Bind.bind, Except.bind, hpre, hsuf, if_true,
      hparse, jSetKey]
  have hpS : lookupAssoc (setAssoc (setAssoc fs0 "processed_at" (.str now))
      "model_used" (.str modelIdent)) "participants" =
      some (.arr (ps.map .str)) := by
    rw [lookup_setAssoc_ne _ _ _ _ (by decide),
      lookup_setAssoc_ne _ _ _ _ (by decide), hp]
  have haS : lookupAssoc (setAssoc (setAssoc fs0 "processed_at" (.str now))
      "model_used" (.str modelIdent)) "actionItems" = some av := by
    rw [lookup_setAssoc_ne _ _ _ _ (by decide),
      lookup_setAssoc_ne _ _ _ _ (by decide), ha]
  have hfieldsS : ∀ f ∈ requiredFields,
      (lookupAssoc (setAssoc (setAssoc fs0 "processed_at" (.str now))
        "model_used" (.str modelIdent)) f).isSome :=
    fun f hf => lookup_setAssoc_isSome _ _ _ _
      (lookup_setAssoc_isSome _ _ _ _ (hfields f hf))
  have hcpj : cleanParticipantsJ (.arr (ps.map JVal.str)) = .ok ps := by
    simp only [cleanParticipantsJ, strListE_map_str, Except.map, hclean]
  have hcf : cleanParticipantsField (setAssoc (setAssoc fs0 "processed_at"
      (.str now)) "model_used" (.str modelIdent)) =
      .ok (setAssoc (setAssoc fs0 "processed_at" (.str now))
        "model_used" (.str modelIdent)) := by
    simp only [cleanParticipantsField, hpS, Option.getD_some, htr, if_true,
      hcpj, Except.map]
    rw [setAssoc_eq_self _ _ _ hpS]
  have hbp : backfillParticipants (setAssoc (setAssoc fs0 "processed_at"
      (.str now)) "model_used" (.str modelIdent)) t =
      setAssoc (setAssoc fs0 "processed_at" (.str now))
        "model_used" (.str modelIdent) := by
    simp only [backfillParticipants, hpS, Option.getD_some, htr, if_true]
  have hba : backfillActions (setAssoc (setAssoc fs0 "processed_at"
      (.str now)) "model_used" (.str modelIdent)) t =
      setAssoc (setAssoc fs0 "processed_at" (.str now))
        "model_used" (.str modelIdent) := by
    simp only [backfillActions, haS, Option.getD_some, hat, if_true]
  have hval : validateAndEnhance (.obj (setAssoc (setAssoc fs0 "processed_at"
      (.str now)) "model_used" (.str modelIdent))) t =
      .ok (.obj (setAssoc (setAssoc fs0 "processed_at" (.str now))
        "model_used" (.str modelIdent))) := by
    simp only [validateAndEnhance, ensureFields_eq_self _ hfieldsS, hcf,
      hbp, hba]
  simp only [processTranscript, hai, Bind.bind, Except.bind, hval]

theorem c4_amended_fenced_reply_stamped_witness :
    processTranscript parseWellFormed (.ok "```json X ```") "t" "now" =
      .obj (setAssoc (setAssoc fsWellFormed "processed_at" (.str "now"))
        "model_used" (.str modelIdent)) :=
  c4_amended_fenced_reply_stamped parseWellFormed "```json X ```"
    fsWellFormed ["Alice"] (.arr [.str "x"]) "t" "now"
    (by decide) (by decide) rfl (by decide) rfl (by decide)
    (by decide) rfl rfl

end AIService
